import Mathlib

/-!
Verification of the `eventd` crate: an in-process, strongly-typed
publish/subscribe dispatcher (src/src/lib.rs).  The dispatcher types are
produced by the `event!` / `__event_impl!` macros; every generated type has
the same three operations over a `slab::Slab` of boxed handlers:

* `subscribe(handler)` — `Subscription { key: self.handlers.insert(Box::new(handler)) }`
* `unsubscribe(subscription)` — `if self.handlers.contains(key) { self.handlers.remove(key); Ok(()) } else { Err(SubscriptionMissing) }`
* `emit(args...)` — `for (_, handler) in <iter over handlers> { (*handler)(args.clone()) }`

The `Fn` discipline iterates `&self.handlers` (shared access, registry cannot
change); the `FnMut` discipline iterates `&mut self.handlers` (handlers may
mutate their own captured state).  The thread-shared discipline is the `Fn`
arm with extra `Send`/`Sync` bounds and has the same emit code.

The slab is the external leaf dependency; its semantics (insert into the
free-list head or append, `contains`, panicking `remove`, ascending-index
iteration over occupied slots) are embedded below following the `slab`
crate's behavior and the contract stated for it in the specification §4.1.
Panics (slab's `remove` on a vacant key, the unreachable arm of `insert`)
are modeled as `Option.none`.
-/

/-- A slab entry: either a vacant slot holding the next free-list pointer, or
an occupied slot holding a stored value (a boxed handler, for the
dispatcher).  Mirrors `slab::Entry`. -/
inductive Entry (α : Type u) where
  | vacant (next : Nat)
  | occupied (val : α)
deriving Repr, DecidableEq

/-- Model of `slab::Slab`: a vector of entries, the number of occupied
entries, and the head of the free list (`next = entries.length` means the
free list is empty and the next insert appends). -/
structure Slab (α : Type u) where
  entries : List (Entry α)
  len : Nat
  next : Nat
deriving Repr, DecidableEq

/-- `Slab::new()`: empty slab. -/
def Slab.new : Slab α := ⟨[], 0, 0⟩

/-- `slab.contains(key)`: O(1) occupancy check — true exactly when `key`
indexes an occupied entry. -/
def Slab.contains (s : Slab α) (key : Nat) : Bool :=
  match s.entries[key]? with
  | some (.occupied _) => true
  | _ => false

/-- `slab.insert(val)`: stores `val` at the free-list head `next` (or appends
when the free list is empty) and returns the assigned key together with the
updated slab.  The `none` result models the `unreachable!` panic the slab
hits when `next` points at a corrupt (non-vacant, non-end) position; it
never fires on well-formed slabs. -/
def Slab.insert (s : Slab α) (val : α) : Option (Nat × Slab α) :=
  if s.next = s.entries.length then
    some (s.next, ⟨s.entries ++ [.occupied val], s.len + 1, s.next + 1⟩)
  else
    match s.entries[s.next]? with
    | some (.vacant n) =>
        some (s.next, ⟨s.entries.set s.next (.occupied val), s.len + 1, n⟩)
    | _ => none

/-- `slab.try_remove(key)`: if `key` is occupied, frees the slot (linking it
onto the free list) and returns the removed value with the updated slab;
otherwise `none`. -/
def Slab.tryRemove (s : Slab α) (key : Nat) : Option (α × Slab α) :=
  match s.entries[key]? with
  | some (.occupied val) =>
      some (val, ⟨s.entries.set key (.vacant s.next), s.len - 1, key⟩)
  | _ => none

/-- `slab.remove(key)`: `try_remove(key).expect(...)` — the `none` result is
the panic on a vacant or out-of-range key. -/
def Slab.remove (s : Slab α) (key : Nat) : Option (α × Slab α) :=
  s.tryRemove key

/-- Iteration worker: walk the entries from index `n` upward, yielding
`(index, value)` for occupied slots and skipping vacant ones. -/
def iterAux : Nat → List (Entry α) → List (Nat × α)
  | _, [] => []
  | n, .occupied v :: rest => (n, v) :: iterAux (n + 1) rest
  | n, .vacant _ :: rest => iterAux (n + 1) rest

/-- `slab.iter()` / `slab.iter_mut()` order: `(index, value)` pairs for the
occupied slots in ascending index order. -/
def Slab.iter (s : Slab α) : List (Nat × α) := iterAux 0 s.entries

/-- The `Subscription` token: a plain wrapper around the slot index assigned
at registration (src/src/lib.rs lines 58-61). -/
structure Subscription where
  key : Nat
deriving Repr, DecidableEq

/-- The unit error returned by `unsubscribe` on an unoccupied slot
(src/src/lib.rs line 66). -/
inductive SubscriptionMissing where
  | mk
deriving Repr, DecidableEq

/-- `subscribe` (src/src/lib.rs lines 141-148): inserts the boxed handler and
wraps the assigned key in a `Subscription`.  `none` models a slab panic. -/
def subscribe (d : Slab H) (handler : H) : Option (Subscription × Slab H) :=
  (d.insert handler).map (fun p => (⟨p.1⟩, p.2))

/-- `unsubscribe` (src/src/lib.rs lines 153-163): checks `contains` first;
when occupied it calls the panicking `remove` and returns `Ok(())`, otherwise
it returns `Err(SubscriptionMissing)` with the registry untouched.  The
result pairs the registry state after the call with the returned `Result`;
the outer `none` models a panic inside `remove`. -/
def unsubscribe (d : Slab H) (t : Subscription) :
    Option (Slab H × Except SubscriptionMissing Unit) :=
  if d.contains t.key then
    (d.remove t.key).map (fun p => (p.2, Except.ok ()))
  else
    some (d, Except.error SubscriptionMissing.mk)

/-- `emit` (src/src/lib.rs lines 168-172) observed as its invocation trace:
for each occupied slot in ascending index order, the handler stored there is
called with a fresh clone of the arguments.  An element `(i, h, a)` records
slot index, invoked handler, and the argument value passed to it. -/
def emitCalls (d : Slab H) (args : A) : List (Nat × H × A) :=
  d.iter.map (fun p => (p.1, p.2, args))

/-- The `Fn`-discipline `emit`, state-passing form: it takes `&self` (shared
access), so it returns the invocation trace together with the dispatcher
state after the call — which shared access cannot have modified. -/
def emitFn (d : Slab H) (args : A) : List (Nat × H × A) × Slab H :=
  (emitCalls d args, d)

/-- An `FnMut` handler as stored by the `FnMut` discipline: its captured
state together with its step function (calling the closure with the cloned
arguments updates the captured state). -/
structure MutHandler (A : Type u) (σ : Type v) where
  state : σ
  step : σ → A → σ

/-- Replacing the stored values of occupied slots in place, leaving the
occupancy structure and the free list alone — the only registry effect an
`FnMut` handler call can have (mutating its own captured state). -/
def mapOccupied (f : α → α) (d : Slab α) : Slab α :=
  { d with
    entries := d.entries.map (fun e =>
      match e with
      | .occupied v => .occupied (f v)
      | .vacant n => .vacant n) }

/-- The `FnMut`-discipline `emit`: iterates `&mut self.handlers`, calling
each occupied handler once with a clone of `args`; each call updates only
that handler's own captured state, leaving every slot's occupancy and the
free list untouched. -/
def emitMut (d : Slab (MutHandler A σ)) (args : A) : Slab (MutHandler A σ) :=
  mapOccupied (fun m => ⟨m.step m.state args, m.step⟩) d

/-- One `emit` with argument-mutating handlers, used to reason about
argument isolation: a handler is a function from the argument value it
receives to the (possibly mutated) final value of its own clone.  Per the
source loop `(*handler)(args.clone())`, each invocation allocates its own
clone of `args`; the trace records, per handler, the slot index, the value
the handler observed (its clone at call time) and the final mutated value of
that clone. -/
def emitInvocations (d : Slab (A → A)) (args : A) : List (Nat × A × A) :=
  d.iter.map (fun p =>
    let copy := args
    (p.1, copy, p.2 copy))

/-- Subscribing a list of handlers in order, with no intervening removals. -/
def subscribeAll (d : Slab H) : List H → Option (Slab H × List Subscription)
  | [] => some (d, [])
  | h :: hs =>
    match subscribe d h with
    | some (t, d1) => (subscribeAll d1 hs).map (fun p => (p.1, t :: p.2))
    | none => none

/-- The currently occupied slot indices of a dispatcher — the set of
currently-subscribed handlers. -/
def occupiedIndices (d : Slab α) : List Nat :=
  (List.range d.entries.length).filter (fun i => d.contains i)

/-- The free list of a slab, as the list of indices it visits: `FreeListOk d
chain k` says that starting from pointer `k` the chain of vacant entries is
exactly `chain`, terminating at `d.entries.length`. -/
def FreeListOk (d : Slab α) : List Nat → Nat → Prop
  | [], k => k = d.entries.length
  | i :: rest, k =>
      k = i ∧ ∃ h, d.entries[i]? = some (.vacant h) ∧ FreeListOk d rest h

/-- Well-formedness of a slab: its free list is an acyclic chain through
exactly the vacant entries.  This is the internal invariant of the `slab`
crate; every slab reachable through the dispatcher API satisfies it. -/
def SlabInv (d : Slab α) : Prop :=
  ∃ chain, FreeListOk d chain d.next ∧ chain.Nodup ∧
    ∀ i h, d.entries[i]? = some (.vacant h) → i ∈ chain

/-- Dispatcher states reachable through the public API: a dispatcher is
created empty (`Default`), then mutated only by `subscribe`, `unsubscribe`
and (for the `FnMut` discipline) the in-place handler-state updates of
`emit`. -/
inductive Reachable : Slab H → Prop where
  | new : Reachable Slab.new
  | subscribe {d d' : Slab H} {h : H} {t : Subscription} :
      Reachable d → subscribe d h = some (t, d') → Reachable d'
  | unsubscribe {d d' : Slab H} {t : Subscription}
      {r : Except SubscriptionMissing Unit} :
      Reachable d → unsubscribe d t = some (d', r) → Reachable d'
  | emit {d : Slab H} {f : H → H} :
      Reachable d → Reachable (mapOccupied f d)

/-! ## Basic facts about occupancy, insertion and removal -/

theorem contains_iff (d : Slab α) (k : Nat) :
    d.contains k = true ↔ ∃ v, d.entries[k]? = some (.occupied v) := by
  unfold Slab.contains
  cases h : d.entries[k]? with
  | none => simp
  | some e => cases e <;> simp

theorem contains_lt {d : Slab α} {k : Nat} (h : d.contains k = true) :
    k < d.entries.length := by
  obtain ⟨v, hv⟩ := (contains_iff d k).1 h
  exact (List.getElem?_eq_some_iff.1 hv).1

theorem tryRemove_of_contains {d : Slab α} {k : Nat} (h : d.contains k = true) :
    ∃ v, d.entries[k]? = some (.occupied v) ∧
      d.tryRemove k = some (v, ⟨d.entries.set k (.vacant d.next), d.len - 1, k⟩) := by
  obtain ⟨v, hv⟩ := (contains_iff d k).1 h
  refine ⟨v, hv, ?_⟩
  unfold Slab.tryRemove
  rw [hv]

theorem contains_set_vacant {l : List (Entry α)} {k : Nat} (hk : k < l.length)
    (n len nxt : Nat) :
    (Slab.mk (l.set k (.vacant n)) len nxt : Slab α).contains k = false := by
  unfold Slab.contains
  rw [List.getElem?_set_self (by simpa using hk)]

theorem insert_result {d : Slab α} {v : α} {k : Nat} {d' : Slab α}
    (h : d.insert v = some (k, d')) :
    k = d.next ∧ d'.entries[k]? = some (.occupied v) := by
  unfold Slab.insert at h
  split at h
  · rename_i hlen
    simp only [Option.some.injEq, Prod.mk.injEq] at h
    obtain ⟨hk, hd⟩ := h
    subst hk
    subst hd
    refine ⟨rfl, ?_⟩
    show (d.entries ++ [Entry.occupied v])[d.next]? = some (Entry.occupied v)
    rw [hlen]
    exact List.getElem?_concat_length _ _
  · split at h
    · rename_i n hvac
      simp only [Option.some.injEq, Prod.mk.injEq] at h
      obtain ⟨hk, hd⟩ := h
      subst hk
      subst hd
      refine ⟨rfl, ?_⟩
      have hlt : d.next < d.entries.length := (List.getElem?_eq_some_iff.1 hvac).1
      show (d.entries.set d.next (Entry.occupied v))[d.next]? = some (Entry.occupied v)
      exact List.getElem?_set_self hlt
    · exact absurd h (by simp)

theorem subscribe_result {d : Slab H} {h : H} {t : Subscription} {d1 : Slab H}
    (hs : subscribe d h = some (t, d1)) :
    d.insert h = some (t.key, d1) ∧ d1.entries[t.key]? = some (.occupied h) := by
  unfold subscribe at hs
  cases hi : d.insert h with
  | none => rw [hi] at hs; exact absurd hs (by simp)
  | some p =>
    rw [hi] at hs
    simp only [Option.map_some', Option.some.injEq, Prod.mk.injEq] at hs
    obtain ⟨ht, hd⟩ := hs
    subst hd
    have hk : t.key = p.1 := by rw [← ht]
    rw [hk]
    exact ⟨by rw [← hi], (insert_result (by rw [hi])).2⟩

theorem unsubscribe_occupied {d : Slab H} {t : Subscription}
    (h : d.contains t.key = true) :
    unsubscribe d t =
      some (⟨d.entries.set t.key (.vacant d.next), d.len - 1, t.key⟩,
        Except.ok ()) := by
  obtain ⟨v, hv, htr⟩ := tryRemove_of_contains h
  unfold unsubscribe Slab.remove
  rw [if_pos h, htr]
  rfl

theorem unsubscribe_vacant {d : Slab H} {t : Subscription}
    (h : d.contains t.key = false) :
    unsubscribe d t = some (d, Except.error SubscriptionMissing.mk) := by
  unfold unsubscribe
  rw [if_neg (by simp [h])]

theorem mapOccupied_contains (f : α → α) (d : Slab α) (i : Nat) :
    (mapOccupied f d).contains i = d.contains i := by
  unfold mapOccupied Slab.contains
  rw [List.getElem?_map]
  cases d.entries[i]? with
  | none => rfl
  | some e => cases e <;> rfl

/-! ## Claims -/

/-- **C1**: for every dispatcher state and token, `unsubscribe` on an
occupied slot returns `Ok(())` and frees that slot; on an unoccupied slot
(already freed, or a token manufactured with an out-of-range index) it
returns `SubscriptionMissing` and leaves the registry completely
unchanged. -/
theorem unsubscribe_frees_or_missing (d : Slab H) (t : Subscription) :
    (d.contains t.key = true →
      ∃ d2, unsubscribe d t = some (d2, Except.ok ()) ∧
        d2.contains t.key = false) ∧
    (d.contains t.key = false →
      unsubscribe d t = some (d, Except.error SubscriptionMissing.mk)) := by
  constructor
  · intro h
    exact ⟨_, unsubscribe_occupied h, contains_set_vacant (contains_lt h) _ _ _⟩
  · intro h
    exact unsubscribe_vacant h

theorem unsubscribe_frees_or_missing_witness :
    (∃ d2, unsubscribe (⟨[Entry.occupied 7], 1, 1⟩ : Slab Nat) ⟨0⟩ =
        some (d2, Except.ok ()) ∧ d2.contains 0 = false) ∧
    unsubscribe (⟨[Entry.occupied 7], 1, 1⟩ : Slab Nat) ⟨5⟩ =
      some (⟨[Entry.occupied 7], 1, 1⟩, Except.error SubscriptionMissing.mk) :=
  ⟨(unsubscribe_frees_or_missing (⟨[Entry.occupied 7], 1, 1⟩ : Slab Nat) ⟨0⟩).1
      (by decide),
   (unsubscribe_frees_or_missing (⟨[Entry.occupied 7], 1, 1⟩ : Slab Nat) ⟨5⟩).2
      (by decide)⟩

/-- **C9**: `unsubscribe` is total and never panics for any token key value,
including indices far past the registry's capacity: the potentially
panicking `remove` is only reached behind the `contains` check, where it
always succeeds. -/
theorem unsubscribe_never_panics (d : Slab H) (t : Subscription) :
    (unsubscribe d t).isSome = true := by
  by_cases h : d.contains t.key = true
  · rw [unsubscribe_occupied h]
    rfl
  · rw [unsubscribe_vacant (by simpa using h)]
    rfl

/-- **C5**: for any token obtained from `subscribe`, unsubscribing twice in a
row with that token (no intervening operations) returns `Ok(())` the first
time and `SubscriptionMissing` the second time, with the registry untouched
by the second call. -/
theorem double_unsubscribe (d : Slab H) (h : H) (t : Subscription) (d1 : Slab H)
    (hs : subscribe d h = some (t, d1)) :
    ∃ d2, unsubscribe d1 t = some (d2, Except.ok ()) ∧
      unsubscribe d2 t = some (d2, Except.error SubscriptionMissing.mk) := by
  have hocc : d1.contains t.key = true :=
    (contains_iff _ _).2 ⟨h, (subscribe_result hs).2⟩
  refine ⟨_, unsubscribe_occupied hocc, ?_⟩
  exact unsubscribe_vacant (contains_set_vacant (contains_lt hocc) _ _ _)

theorem double_unsubscribe_witness :
    ∃ d2, unsubscribe (⟨[Entry.occupied 7], 1, 1⟩ : Slab Nat) ⟨0⟩ =
        some (d2, Except.ok ()) ∧
      unsubscribe d2 ⟨0⟩ = some (d2, Except.error SubscriptionMissing.mk) :=
  double_unsubscribe Slab.new 7 ⟨0⟩ (⟨[Entry.occupied 7], 1, 1⟩ : Slab Nat)
    (by decide)

/-- **C8**: for a read-only (`Fn`) dispatcher, `emit` leaves the dispatcher
untouched, and calling `emit(x)` twice with no subscription changes between
the calls produces the same invocation trace (same handlers, same order)
both times. -/
theorem emit_twice_same_trace (d : Slab H) (x : A) :
    (emitFn d x).2 = d ∧ (emitFn ((emitFn d x).2) x).1 = (emitFn d x).1 :=
  ⟨rfl, rfl⟩

/-- **C10**: `emit` never changes the registry structure: the `Fn`-discipline
`emit` (also used by the thread-shared discipline) returns the dispatcher
unchanged, and the `FnMut`-discipline `emit` preserves the occupancy of
every slot (hence the validity of every outstanding token) as well as the
free-list head, the stored length, and the entry-vector length. -/
theorem emit_never_changes_registry (d : Slab H) (args : A)
    (dm : Slab (MutHandler A σ)) (margs : A) :
    (emitFn d args).2 = d ∧
    (∀ i, (emitMut dm margs).contains i = dm.contains i) ∧
    (emitMut dm margs).next = dm.next ∧
    (emitMut dm margs).len = dm.len ∧
    (emitMut dm margs).entries.length = dm.entries.length :=
  ⟨rfl, fun i => mapOccupied_contains _ dm i, rfl, rfl, by
    simp [emitMut, mapOccupied]⟩

/-! ## Iteration order and completeness -/

/-- Occupancy of an optional entry, as tested by `contains` and by the
iterator's skip of vacant slots. -/
def entryOcc : Option (Entry α) → Bool
  | some (.occupied _) => true
  | _ => false

theorem contains_eq_entryOcc (d : Slab α) (k : Nat) :
    d.contains k = entryOcc d.entries[k]? := by
  unfold Slab.contains entryOcc
  cases d.entries[k]? with
  | none => rfl
  | some e => cases e <;> rfl

theorem iterAux_map_fst (l : List (Entry α)) : ∀ n : Nat,
    (iterAux n l).map Prod.fst =
      ((List.range l.length).filter (fun i => entryOcc l[i]?)).map
        (fun i => n + i) := by
  induction l with
  | nil => intro n; simp [iterAux]
  | cons e rest ih =>
    intro n
    have hsucc :
        List.filter (fun i => entryOcc (e :: rest)[i]?)
            (List.map Nat.succ (List.range rest.length)) =
          List.map Nat.succ
            (List.filter (fun i => entryOcc rest[i]?)
              (List.range rest.length)) := by
      rw [List.filter_map]
      exact congrArg _ (List.filter_congr (fun i _ => by
        simp [Function.comp, Nat.succ_eq_add_one]))
    have hmap :
        List.map (fun i => n + i)
            (List.map Nat.succ
              (List.filter (fun i => entryOcc rest[i]?)
                (List.range rest.length))) =
          List.map (fun i => (n + 1) + i)
            (List.filter (fun i => entryOcc rest[i]?)
              (List.range rest.length)) := by
      rw [List.map_map]
      exact List.map_congr_left (fun a _ => by
        simp [Function.comp, Nat.succ_eq_add_one]
        omega)
    cases e with
    | occupied v =>
      have h0 : entryOcc ((Entry.occupied v : Entry α) :: rest)[0]? = true := by
        simp [entryOcc]
      rw [List.length_cons, List.range_succ_eq_map, List.filter_cons, h0,
        if_pos rfl, hsucc, List.map_cons, hmap, ← ih (n + 1)]
      simp only [iterAux, List.map_cons]
      simp
    | vacant m =>
      have h0 : entryOcc ((Entry.vacant m : Entry α) :: rest)[0]? = false := by
        simp [entryOcc]
      rw [List.length_cons, List.range_succ_eq_map, List.filter_cons, h0,
        if_neg Bool.false_ne_true, hsucc, hmap, ← ih (n + 1)]
      simp only [iterAux]

theorem iter_map_fst (d : Slab α) :
    d.iter.map Prod.fst = occupiedIndices d := by
  unfold Slab.iter occupiedIndices
  rw [iterAux_map_fst]
  have hpred : (fun i => d.contains i) = (fun i => entryOcc d.entries[i]?) := by
    funext i
    exact contains_eq_entryOcc d i
  rw [hpred]
  simp

theorem mem_iterAux {l : List (Entry α)} : ∀ {n i : Nat} {v : α},
    (i, v) ∈ iterAux n l → ∃ j, i = n + j ∧ l[j]? = some (.occupied v) := by
  induction l with
  | nil => intro n i v h; simp [iterAux] at h
  | cons e rest ih =>
    intro n i v h
    cases e with
    | occupied w =>
      simp only [iterAux] at h
      rcases List.mem_cons.1 h with h1 | h2
      · have hi : i = n ∧ v = w := by simpa [Prod.ext_iff] using h1
        obtain ⟨hi1, hi2⟩ := hi
        subst hi1
        subst hi2
        exact ⟨0, by omega, by simp⟩
      · obtain ⟨j, hj, hjv⟩ := ih h2
        exact ⟨j + 1, by omega, by simpa using hjv⟩
    | vacant m =>
      simp only [iterAux] at h
      obtain ⟨j, hj, hjv⟩ := ih h
      exact ⟨j + 1, by omega, by simpa using hjv⟩

theorem emitCalls_map_fst (d : Slab H) (args : A) :
    (emitCalls d args).map (fun c => c.1) = occupiedIndices d := by
  unfold emitCalls
  rw [List.map_map]
  exact iter_map_fst d

theorem mem_occupiedIndices (d : Slab α) (i : Nat) :
    i ∈ occupiedIndices d ↔ d.contains i = true := by
  unfold occupiedIndices
  rw [List.mem_filter]
  exact ⟨fun h => h.2, fun h => ⟨List.mem_range.2 (contains_lt h), h⟩⟩

/-- **C2**: one `emit` call invokes handlers exactly once per
currently-subscribed handler: the invocation trace has exactly one entry per
occupied slot, its slot indices are exactly the occupied slots, and each
invocation calls the handler stored in that slot with the emitted
arguments. -/
theorem emit_invokes_exactly_subscribed (d : Slab H) (args : A) :
    (emitCalls d args).length = (occupiedIndices d).length ∧
    (∀ i, i ∈ (emitCalls d args).map (fun c => c.1) ↔ d.contains i = true) ∧
    (∀ c ∈ emitCalls d args,
      d.entries[c.1]? = some (.occupied c.2.1) ∧ c.2.2 = args) := by
  refine ⟨?_, ?_, ?_⟩
  · have h := congrArg List.length (emitCalls_map_fst d args)
    simpa using h
  · intro i
    rw [emitCalls_map_fst]
    exact mem_occupiedIndices d i
  · intro c hc
    obtain ⟨p, hp, hpc⟩ := List.mem_map.1 hc
    obtain ⟨j, hj, hjv⟩ := mem_iterAux hp
    subst hpc
    refine ⟨?_, rfl⟩
    rw [show p.1 = j from by omega]
    exact hjv

theorem emit_invokes_exactly_subscribed_witness :
    (0 : Nat) ∈ (emitCalls (⟨[Entry.occupied 5], 1, 1⟩ : Slab Nat)
        (9 : Nat)).map (fun c => c.1) ∧
    (⟨[Entry.occupied 5], 1, 1⟩ : Slab Nat).entries[(0 : Nat)]? =
      some (Entry.occupied 5) :=
  ⟨((emit_invokes_exactly_subscribed (⟨[Entry.occupied 5], 1, 1⟩ : Slab Nat)
        9).2.1 0).mpr (by decide),
   ((emit_invokes_exactly_subscribed (⟨[Entry.occupied 5], 1, 1⟩ : Slab Nat)
        9).2.2 (0, 5, 9) (by decide)).1⟩

/-- **C3**: handlers h1, h2, h3 subscribed in that order into a fresh
dispatcher with no intervening removals occupy slots 0, 1, 2 and are invoked
by `emit` as h1, then h2, then h3; in general the invocation trace visits
occupied slots in strictly ascending slot-index order. -/
theorem emit_registration_order (h1 h2 h3 : H) (args : A) :
    (∃ d, subscribeAll Slab.new [h1, h2, h3] = some (d, [⟨0⟩, ⟨1⟩, ⟨2⟩]) ∧
      emitCalls d args = [(0, h1, args), (1, h2, args), (2, h3, args)]) ∧
    (∀ e : Slab H, List.Pairwise (· < ·) ((emitCalls e args).map (fun c => c.1))) := by
  constructor
  · exact ⟨⟨[.occupied h1, .occupied h2, .occupied h3], 3, 3⟩, rfl, rfl⟩
  · intro e
    rw [emitCalls_map_fst]
    exact List.Pairwise.filter _ (List.pairwise_lt_range _)

/-- **C4**: argument isolation within one `emit`: every handler receives its
own clone of the emitted arguments, so the value each handler observes is
the emitted value itself, and the observed values are entirely independent
of how any handler mutates its own copy (two dispatchers with equally many
subscribed handlers but arbitrarily different mutating handlers produce
identical observed-value traces). -/
theorem emit_argument_isolation (d d' : Slab (A → A)) (args : A)
    (hlen : d.iter.length = d'.iter.length) :
    (emitInvocations d args).map (fun c => c.2.1) =
      (emitInvocations d' args).map (fun c => c.2.1) ∧
    ∀ c ∈ emitInvocations d args, c.2.1 = args := by
  have hrep : ∀ (e : Slab (A → A)),
      (emitInvocations e args).map (fun c => c.2.1) =
        List.replicate e.iter.length args := by
    intro e
    unfold emitInvocations
    rw [List.map_map]
    induction e.iter with
    | nil => rfl
    | cons p l ih => simpa [List.replicate] using ih
  constructor
  · rw [hrep d, hrep d', hlen]
  · intro c hc
    obtain ⟨p, _, hpc⟩ := List.mem_map.1 hc
    subst hpc
    rfl

theorem emit_argument_isolation_witness :
    (emitInvocations
        (⟨[Entry.occupied (fun x => x + 100)], 1, 1⟩ : Slab (Nat → Nat))
        1).map (fun c => c.2.1) =
      (emitInvocations
        (⟨[Entry.occupied (fun x => x)], 1, 1⟩ : Slab (Nat → Nat))
        1).map (fun c => c.2.1) ∧
    ((0, 1, 101) : Nat × Nat × Nat).2.1 = 1 :=
  ⟨(emit_argument_isolation
      (⟨[Entry.occupied (fun x => x + 100)], 1, 1⟩ : Slab (Nat → Nat))
      (⟨[Entry.occupied (fun x => x)], 1, 1⟩ : Slab (Nat → Nat)) 1 rfl).1,
   (emit_argument_isolation
      (⟨[Entry.occupied (fun x => x + 100)], 1, 1⟩ : Slab (Nat → Nat))
      (⟨[Entry.occupied (fun x => x)], 1, 1⟩ : Slab (Nat → Nat)) 1 rfl).2
      (0, 1, 101) (by decide)⟩

/-- **C6**: after subscribe(h1), a successful unsubscribe of h1's token, and
subscribe(h2), the new token reuses the freed slot (it equals the old
token), a subsequent `emit` invokes only h2, exactly once — and the stale
old token is indistinguishable from the new one: unsubscribing with it
succeeds and frees h2's slot. -/
theorem slot_reuse_scenario (h1 h2 : H) (args : A) :
    ∃ t1 d1 d2 t2 d3 d4,
      subscribe Slab.new h1 = some (t1, d1) ∧
      unsubscribe d1 t1 = some (d2, Except.ok ()) ∧
      subscribe d2 h2 = some (t2, d3) ∧
      t2 = t1 ∧
      emitCalls d3 args = [(t2.key, h2, args)] ∧
      unsubscribe d3 t1 = some (d4, Except.ok ()) ∧
      d4.contains t2.key = false := by
  exact ⟨⟨0⟩, ⟨[.occupied h1], 1, 1⟩, ⟨[.vacant 1], 0, 0⟩, ⟨0⟩,
    ⟨[.occupied h2], 1, 1⟩, ⟨[.vacant 1], 0, 0⟩,
    rfl, rfl, rfl, rfl, rfl, rfl, rfl⟩

/-! ## The slab free-list invariant and totality of subscribe -/

theorem freeListOk_mem_vacant {d : Slab α} {chain : List Nat} :
    ∀ {k}, FreeListOk d chain k →
      ∀ i ∈ chain, ∃ h, d.entries[i]? = some (.vacant h) := by
  induction chain with
  | nil => intro k _ i hi; cases hi
  | cons a rest ih =>
    intro k hf i hi
    simp only [FreeListOk] at hf
    obtain ⟨hk, h, hvace, hrest⟩ := hf
    rcases List.mem_cons.1 hi with h1 | h2
    · subst h1
      exact ⟨h, hvace⟩
    · exact ih hrest i h2

theorem freeListOk_set {d : Slab α} {chain : List Nat} {j : Nat} {e : Entry α}
    (len2 nxt2 : Nat) :
    ∀ {k}, j ∉ chain → FreeListOk d chain k →
      FreeListOk (⟨d.entries.set j e, len2, nxt2⟩ : Slab α) chain k := by
  induction chain with
  | nil =>
    intro k _ hk
    simp only [FreeListOk] at hk ⊢
    simpa using hk
  | cons a rest ih =>
    intro k hj hf
    simp only [FreeListOk] at hf ⊢
    obtain ⟨hk, h, hvace, hrest⟩ := hf
    have hja : j ≠ a := fun heq => hj (heq ▸ List.mem_cons_self a rest)
    refine ⟨hk, h, ?_, ih (fun hm => hj (List.mem_cons_of_mem a hm)) hrest⟩
    show (d.entries.set j e)[a]? = some (.vacant h)
    rw [List.getElem?_set_ne hja]
    exact hvace

theorem slabInv_new : SlabInv (Slab.new : Slab α) := by
  refine ⟨[], ?_, List.nodup_nil, ?_⟩
  · simp [FreeListOk, Slab.new]
  · intro i h hi
    simp [Slab.new] at hi

theorem insert_append {d : Slab α} (hlen : d.next = d.entries.length) (v : α) :
    d.insert v =
      some (d.next, ⟨d.entries ++ [.occupied v], d.len + 1, d.next + 1⟩) := by
  unfold Slab.insert
  rw [if_pos hlen]

theorem insert_reuse {d : Slab α} {h : Nat}
    (hvace : d.entries[d.next]? = some (.vacant h)) (v : α) :
    d.insert v =
      some (d.next, ⟨d.entries.set d.next (.occupied v), d.len + 1, h⟩) := by
  have hlt : d.next < d.entries.length := (List.getElem?_eq_some_iff.1 hvace).1
  unfold Slab.insert
  rw [if_neg (by omega), hvace]

theorem insert_of_inv {d : Slab α} (hinv : SlabInv d) (v : α) :
    ∃ d1, d.insert v = some (d.next, d1) ∧ SlabInv d1 := by
  obtain ⟨chain, hf, hnd, hvac⟩ := hinv
  cases chain with
  | nil =>
    have hlen : d.next = d.entries.length := hf
    refine ⟨_, insert_append hlen v, [], ?_, List.nodup_nil, ?_⟩
    · simp only [FreeListOk]
      simp [hlen]
    · intro j hj hvj
      rw [List.getElem?_append] at hvj
      split at hvj
      · exact absurd (hvac j hj hvj) (List.not_mem_nil j)
      · rcases hidx : j - d.entries.length with _ | m
        · rw [hidx] at hvj
          cases hvj
        · rw [hidx] at hvj
          simp at hvj
  | cons a rest =>
    simp only [FreeListOk] at hf
    obtain ⟨hk, h, hvace, hrest⟩ := hf
    subst hk
    refine ⟨_, insert_reuse hvace v, rest, ?_, (List.nodup_cons.1 hnd).2, ?_⟩
    · exact freeListOk_set _ _ (List.nodup_cons.1 hnd).1 hrest
    · intro j hj hvj
      have hlt : d.next < d.entries.length :=
        (List.getElem?_eq_some_iff.1 hvace).1
      by_cases hja : j = d.next
      · subst hja
        rw [List.getElem?_set_self hlt] at hvj
        cases hvj
      · rw [List.getElem?_set_ne (fun he => hja he.symm)] at hvj
        rcases List.mem_cons.1 (hvac j hj hvj) with h1 | h2
        · exact absurd h1 hja
        · exact h2

theorem slabInv_tryRemove {d : Slab α} {k : Nat} {v : α} {d2 : Slab α}
    (hinv : SlabInv d) (h : d.tryRemove k = some (v, d2)) : SlabInv d2 := by
  obtain ⟨chain, hf, hnd, hvac⟩ := hinv
  have hshape : d.entries[k]? = some (.occupied v) ∧
      d2 = ⟨d.entries.set k (.vacant d.next), d.len - 1, k⟩ := by
    unfold Slab.tryRemove at h
    cases he : d.entries[k]? with
    | none => rw [he] at h; cases h
    | some e =>
      cases e with
      | vacant n => rw [he] at h; cases h
      | occupied w =>
        rw [he] at h
        have hw : w = v ∧ (⟨d.entries.set k (.vacant d.next), d.len - 1, k⟩ :
            Slab α) = d2 := by simpa [Prod.ext_iff] using h
        rw [← hw.2, ← hw.1]
        exact ⟨rfl, rfl⟩
  obtain ⟨hocc, hd2⟩ := hshape
  have hklt : k < d.entries.length := (List.getElem?_eq_some_iff.1 hocc).1
  have hknot : k ∉ chain := by
    intro hkmem
    obtain ⟨p, hp⟩ := freeListOk_mem_vacant hf k hkmem
    rw [hocc] at hp
    cases hp
  subst hd2
  refine ⟨k :: chain, ?_, List.nodup_cons.2 ⟨hknot, hnd⟩, ?_⟩
  · refine ⟨rfl, d.next, ?_, freeListOk_set _ _ hknot hf⟩
    show (d.entries.set k (.vacant d.next))[k]? = some (.vacant d.next)
    exact List.getElem?_set_self hklt
  · intro j hj hvj
    by_cases hjk : j = k
    · subst hjk
      exact List.mem_cons_self j chain
    · show j ∈ k :: chain
      rw [List.getElem?_set_ne (fun he => hjk he.symm)] at hvj
      exact List.mem_cons_of_mem k (hvac j hj hvj)

theorem freeListOk_mapOccupied {d : Slab α} {f : α → α} {chain : List Nat} :
    ∀ {k}, FreeListOk d chain k → FreeListOk (mapOccupied f d) chain k := by
  induction chain with
  | nil =>
    intro k hk
    simp only [FreeListOk] at hk ⊢
    simpa [mapOccupied] using hk
  | cons a rest ih =>
    intro k hf
    simp only [FreeListOk] at hf ⊢
    obtain ⟨hk, h, hvace, hrest⟩ := hf
    refine ⟨hk, h, ?_, ih hrest⟩
    show (mapOccupied f d).entries[a]? = some (.vacant h)
    unfold mapOccupied
    simp only [List.getElem?_map, hvace]
    rfl

theorem slabInv_mapOccupied {d : Slab α} (hinv : SlabInv d) (f : α → α) :
    SlabInv (mapOccupied f d) := by
  obtain ⟨chain, hf, hnd, hvac⟩ := hinv
  refine ⟨chain, freeListOk_mapOccupied hf, hnd, ?_⟩
  intro j h hvj
  have : d.entries[j]? = some (.vacant h) := by
    revert hvj
    unfold mapOccupied
    simp only [List.getElem?_map]
    cases he : d.entries[j]? with
    | none => intro hvj; cases hvj
    | some e =>
      cases e with
      | vacant n =>
        intro hvj
        have : n = h := by simpa using hvj
        rw [this]
      | occupied w =>
        intro hvj
        simp at hvj
  exact hvac j h this

theorem slabInv_subscribe {d : Slab H} {h : H} {t : Subscription} {d1 : Slab H}
    (hinv : SlabInv d) (hs : subscribe d h = some (t, d1)) : SlabInv d1 := by
  obtain ⟨d2, heq, hinv2⟩ := insert_of_inv hinv h
  have hins : d.insert h = some (t.key, d1) := (subscribe_result hs).1
  rw [heq] at hins
  have hd : d2 = d1 := congrArg Prod.snd (Option.some.inj hins)
  rw [← hd]
  exact hinv2

theorem slabInv_unsubscribe {d : Slab H} {t : Subscription} {d2 : Slab H}
    {r : Except SubscriptionMissing Unit}
    (hinv : SlabInv d) (h : unsubscribe d t = some (d2, r)) : SlabInv d2 := by
  by_cases hc : d.contains t.key = true
  · obtain ⟨v, hv, htr⟩ := tryRemove_of_contains hc
    rw [unsubscribe_occupied hc] at h
    have hd : (⟨d.entries.set t.key (.vacant d.next), d.len - 1, t.key⟩ :
        Slab H) = d2 :=
      congrArg Prod.fst (Option.some.inj h)
    rw [← hd]
    exact slabInv_tryRemove hinv htr
  · rw [unsubscribe_vacant (by simpa using hc)] at h
    have hd : d = d2 := congrArg Prod.fst (Option.some.inj h)
    rw [← hd]
    exact hinv

theorem reachable_inv {d : Slab H} (h : Reachable d) : SlabInv d := by
  induction h with
  | new => exact slabInv_new
  | subscribe _ hs ih => exact slabInv_subscribe ih hs
  | unsubscribe _ hu ih => exact slabInv_unsubscribe ih hu
  | emit _ ih => exact slabInv_mapOccupied ih _

/-- **C7**: `subscribe` never fails: on every dispatcher state reachable
through the API it inserts the handler into the registry and returns a
`Subscription` token whose key is exactly the slot index assigned by the
registry's insert. -/
theorem subscribe_never_fails (d : Slab H) (h : H) (hr : Reachable d) :
    ∃ k d1, d.insert h = some (k, d1) ∧ subscribe d h = some (⟨k⟩, d1) ∧
      d1.entries[k]? = some (.occupied h) := by
  obtain ⟨d1, heq, _⟩ := insert_of_inv (reachable_inv hr) h
  refine ⟨d.next, d1, heq, ?_, (insert_result heq).2⟩
  unfold subscribe
  rw [heq]
  rfl

theorem subscribe_never_fails_witness :
    ∃ k d1, Slab.insert (Slab.new : Slab Nat) 7 = some (k, d1) ∧
      subscribe (Slab.new : Slab Nat) 7 = some (⟨k⟩, d1) ∧
      d1.entries[k]? = some (Entry.occupied 7) :=
  subscribe_never_fails Slab.new 7 Reachable.new
